import Mathlib

/-!
Verification of the layout machinery of `unicode::BasicString` (src/String.hpp).

The buffer is modelled through the grapheme segmenter's view of it: a list
`ws : List Nat` of the byte widths of its grapheme clusters, in order.  The
byte length of the buffer is `ws.sum`, the character count is `ws.length`,
and the i-th cluster occupies the byte range starting at `(ws.take i).sum`
with size `ws.get i`.  This is exactly the data the `BreakIterator` loop of
`Layout::getFor` consumes (`characterByteSize = end - start`, one step per
cluster); a cluster always occupies at least one byte, so
`calculateSizeInCharacters` returns `ws.length` for every buffer.

Machine-integer notes, mirrored where overflow can actually engage:
* `Layout::averageCharacterSize` is an 8-bit bitfield; storing wraps mod 256
  (`NOT_EVALUATED = 0` is the sentinel).  Modelled with an explicit `% 256`.
* `Block::characterSizeMinusOne` is a 4-bit bitfield; `setCharacterSize`
  stores `size - 1` into it, wrapping mod 16.  Modelled explicitly.
* `Block::charactersCountMinusOne` is a 4-bit bitfield, but every increment
  in the source is guarded by `isFull()`, so it never wraps; modelled as Nat.
* `Block::firstByteDifference` is a 32-bit signed bitfield.  Under the
  builder's own precondition `str.size() <= maxSize()` (2^31 - 1 bytes,
  asserted in `getFor`) the running correction provably stays below 2^31 in
  magnitude, so the embedding uses an unbounded `Int`.
* byte offsets (`ByteIndex`, a `size_t`) are modelled as exact `Int`s; for
  every layout the program builds the computed offset is the exact byte
  offset of the character, so the mod-2^64 reduction never engages.
-/

namespace UC

/-- Round-to-nearest of `num / den`, halves away from zero: the exact value of
`std::round(double(num) / den)` in `Layout::getFor`.  (For `num < 2^31` the
double division is never close enough to a half-integer boundary for the
floating intermediate to change the rounded result.) -/
def natRound (num den : Nat) : Nat := (2 * num + den) / (2 * den)

/-- `Layout::Block`: a run of consecutive characters whose byte size differs
from the average (plus the average-width single-character blocks the builder
creates right after a non-average run). -/
structure Block where
  /-- Index of the first character in block -/
  firstCharacter : Nat
  /-- Difference from first byte estimation (32-bit signed bitfield in the
  source; see the header comment for why it is unbounded here) -/
  firstByteDifference : Int
  /-- Count of characters in block, minus one (4-bit field) -/
  charactersCountMinusOne : Nat
  /-- Size of character in bytes, minus one (4-bit field) -/
  characterSizeMinusOne : Nat
deriving DecidableEq, Repr

namespace Block

/-- Get size of character in bytes -/
def characterSize (b : Block) : Nat := b.characterSizeMinusOne + 1

/-- Set character size in bytes: the source stores `size - 1` into the 4-bit
field `characterSizeMinusOne`, i.e. `(size - 1) mod 16`; written as
`(size + 15) % 16` so that Nat subtraction cannot truncate at `size = 0`
(where the C++ wraps to 15 as well). -/
def setCharacterSize (b : Block) (size : Nat) : Block :=
  { b with characterSizeMinusOne := (size + 15) % 16 }

/-- Get count of characters in block -/
def charactersCount (b : Block) : Nat := b.charactersCountMinusOne + 1

/-- Increment characters count (guarded by `isFull` at every call site) -/
def incrementCharactersCount (b : Block) : Block :=
  { b with charactersCountMinusOne := b.charactersCountMinusOne + 1 }

/-- Is block full? -/
def isFull (b : Block) : Bool := b.charactersCount == 16

/-- Does this block contain character with given index? -/
def containsCharacterIndex (b : Block) (index : Nat) : Bool :=
  decide (b.firstCharacter ≤ index) &&
    decide (index < b.firstCharacter + b.charactersCount)

/-- A block whose character count was increased by `t` (proof-side helper:
`incrementCharactersCount` iterated `t` times). -/
def grow (b : Block) (t : Nat) : Block :=
  { b with charactersCountMinusOne := b.charactersCountMinusOne + t }

end Block

/-- `Layout::characterSizeDifference`: difference of a block's character size
from the average character size, as a signed quantity. -/
def characterSizeDifference (avg : Nat) (b : Block) : Int :=
  (b.characterSize : Int) - (avg : Int)

/-- `BasicString::Layout`: average width plus the sorted correction blocks.
`averageCharacterSize = 0` is the `NOT_EVALUATED` sentinel. -/
structure Layout where
  /-- Average character size in bytes (8-bit bitfield; 0 = NOT_EVALUATED) -/
  averageCharacterSize : Nat
  /-- Number of characters in string -/
  size : Nat
  /-- Blocks, sorted by first character index -/
  blocks : List Block
deriving DecidableEq, Repr

namespace Layout

/-- Is layout evaluated? (`averageCharacterSize != NOT_EVALUATED`) -/
def isEvaluated (l : Layout) : Bool := l.averageCharacterSize != 0

/-- Is this layout for ASCII string? -/
def isASCII (l : Layout) : Bool :=
  (l.averageCharacterSize == 1) && l.blocks.isEmpty

/-- Estimate first byte index for character -/
def estimateFirstByteIndex (l : Layout) (index : Nat) : Int :=
  (index : Int) * (l.averageCharacterSize : Int)

end Layout

/-- `Layout::getNearestLeftBlock`: `blocks.upper_bound(index)` on the sorted
vector is the first block with `firstCharacter > index`; the reverse iterator
made from it designates the last block with `firstCharacter ≤ index`, or
`rend` (here `none`) when there is no such block.  On the sorted block lists
the program builds this equals the scan below. -/
def getNearestLeftBlock (blocks : List Block) (index : Nat) : Option Block :=
  (blocks.takeWhile (fun b => decide (b.firstCharacter ≤ index))).getLast?

/-- `Layout::getCharacterByteIndexAndSize`: byte index and size for a
character, resolved from the estimate and the nearest left block. -/
def Layout.getCharacterByteIndexAndSize (l : Layout) (characterIndex : Nat) :
    Int × Nat :=
  let res : Int × Nat :=
    (l.estimateFirstByteIndex characterIndex, l.averageCharacterSize)
  if l.blocks.isEmpty then res
  else
    match getNearestLeftBlock l.blocks characterIndex with
    | none => res
    | some b =>
      let index := res.1 + b.firstByteDifference
      if b.containsCharacterIndex characterIndex then
        (index + ((characterIndex - b.firstCharacter : Nat) : Int) *
            characterSizeDifference l.averageCharacterSize b,
         b.characterSize)
      else (index, res.2)

/-- The loop state of `Layout::getFor`: `previousCharacterSize`,
`currentBlock`, `characterIndex`, `byteDifference`, and the flushed blocks. -/
structure BuildState where
  previousCharacterSize : Nat
  currentBlock : Option Block
  characterIndex : Nat
  byteDifference : Int
  blocks : List Block
deriving DecidableEq, Repr

/-- The "add previous block to set, open a new block" tail of the loop body of
`Layout::getFor`: flush `currentBlock` (accumulating `byteDifference`), then
open a fresh block at the current character with the current correction. -/
def flushAndOpen (avg : Nat) (st : BuildState) (w : Nat) : BuildState :=
  let bd : Int :=
    match st.currentBlock with
    | some b => st.byteDifference +
        (b.charactersCount : Int) * characterSizeDifference avg b
    | none => st.byteDifference
  let blocks :=
    match st.currentBlock with
    | some b => st.blocks ++ [b]
    | none => st.blocks
  { previousCharacterSize := w
    currentBlock := some (Block.setCharacterSize
      { firstCharacter := st.characterIndex
        firstByteDifference := bd
        charactersCountMinusOne := 0
        characterSizeMinusOne := 0 } w)
    characterIndex := st.characterIndex + 1
    byteDifference := bd
    blocks := blocks }

/-- One iteration of the loop of `Layout::getFor` over a character of byte
width `w`.  The `currentBlock = none` branch under `w = previous ≠ avg` is
unreachable (the source asserts `currentBlock.has_value()` there: `previous`
differs from `avg` only after a block was opened); it is modelled as the
flush-and-open fallthrough. -/
def buildStep (avg : Nat) (st : BuildState) (w : Nat) : BuildState :=
  if w = st.previousCharacterSize then
    if st.previousCharacterSize = avg then
      { st with characterIndex := st.characterIndex + 1 }
    else
      match st.currentBlock with
      | some b =>
        if b.isFull then flushAndOpen avg st w
        else { st with currentBlock := some b.incrementCharactersCount
                       characterIndex := st.characterIndex + 1 }
      | none => flushAndOpen avg st w
  else flushAndOpen avg st w

/-- The state at the top of the loop of `Layout::getFor`. -/
def initState (avg : Nat) : BuildState :=
  { previousCharacterSize := avg
    currentBlock := none
    characterIndex := 0
    byteDifference := 0
    blocks := [] }

/-- The block set after the loop: flushed blocks plus the last open block
("add last block to set"). -/
def emit (st : BuildState) : List Block :=
  st.blocks ++ (match st.currentBlock with | some b => [b] | none => [])

/-- `Layout::getFor`, over the segmenter's view `ws` of the buffer (the list
of grapheme-cluster byte widths): byte length is `ws.sum` and the cluster
count computed by `calculateSizeInCharacters` is `ws.length`. -/
def Layout.getFor (ws : List Nat) : Layout :=
  let size := ws.length
  let byteLen := ws.sum
  if size = byteLen then
    { averageCharacterSize := 1, size := size, blocks := [] }
  else
    let avg := natRound byteLen size % 256
    let st := List.foldl (buildStep avg) (initState avg) ws
    { averageCharacterSize := avg, size := size, blocks := emit st }

/-- `BasicString::absoluteIndex` (relative-from-end form): computes
`RelativeCharacterIndex(size()) + relative` and converts the signed result to
the unsigned `CharacterIndex`, i.e. reduces it mod 2^32. -/
def Layout.absoluteIndex (l : Layout) (relative : Int) : Nat :=
  ((((l.size : Int) + relative) % ((2 : Int) ^ 32))).toNat

/-- The signed `BasicString::operator[]`: a negative index is converted with
`absoluteIndex`, a non-negative one is used directly; the result is the byte
range of the resolved character. -/
def Layout.atSigned (l : Layout) (index : Int) : Int × Nat :=
  if index < 0 then l.getCharacterByteIndexAndSize (l.absoluteIndex index)
  else l.getCharacterByteIndexAndSize index.toNat

/-- A default-constructed `Layout{}`: `NOT_EVALUATED` average, `size = -1`
(as `uint32_t`), no blocks. -/
def defaultLayout : Layout :=
  { averageCharacterSize := 0, size := 2 ^ 32 - 1, blocks := [] }

/-- `BasicString` as far as `operator+=` observes it: the raw byte buffer
(byte values opaque) plus the mutable cached `_layout`. -/
structure MString where
  bytes : List Nat
  cachedLayout : Layout
deriving DecidableEq, Repr

/-- `BasicString::operator+=`: early-out on empty input; clear the cache when
the appended part is at least as large as the buffer; append; clear the cache
when the (now nonempty) string still holds an evaluated layout. -/
def MString.appendBytes (s : MString) (str : List Nat) : MString :=
  if str.isEmpty then s
  else
    let s1 := if s.bytes.length ≤ str.length then
        { s with cachedLayout := defaultLayout } else s
    let s2 := { s1 with bytes := s1.bytes ++ str }
    if !s2.bytes.isEmpty && s2.cachedLayout.isEvaluated then
      { s2 with cachedLayout := defaultLayout }
    else s2

end UC

namespace UC

/-! ### Helper facts about the builder's correction bookkeeping -/

/-- The byte-offset correction contributed by one block:
`charactersCount * (characterSize - averageCharacterSize)`, exactly the
amount `getFor` adds to `byteDifference` when flushing the block. -/
def blockCorrection (avg : Nat) (b : Block) : Int :=
  (b.charactersCount : Int) * characterSizeDifference avg b

/-- Total correction contributed by a list of blocks. -/
def totalCorrection (avg : Nat) (blocks : List Block) : Int :=
  (blocks.map (blockCorrection avg)).sum

theorem totalCorrection_append (avg : Nat) (l₁ l₂ : List Block) :
    totalCorrection avg (l₁ ++ l₂) =
      totalCorrection avg l₁ + totalCorrection avg l₂ := by
  simp [totalCorrection]

/-- Invariant of the `getFor` loop that justifies the `prefixCorrection`
reading of `firstByteDifference`. -/
def bdInv (avg : Nat) (st : BuildState) : Prop :=
  st.byteDifference = totalCorrection avg st.blocks ∧
  (∀ k b, st.blocks.get? k = some b →
    b.firstByteDifference = totalCorrection avg (st.blocks.take k)) ∧
  (∀ b, st.currentBlock = some b →
    b.firstByteDifference = st.byteDifference)

theorem bdInv_flushAndOpen (avg : Nat) (st : BuildState) (w : Nat)
    (h : bdInv avg st) : bdInv avg (flushAndOpen avg st w) := by
  obtain ⟨h1, h2, h3⟩ := h
  cases hc : st.currentBlock with
  | none =>
    refine ⟨by simp [flushAndOpen, hc, h1], ?_, ?_⟩
    · intro k b hk
      simp only [flushAndOpen, hc] at hk ⊢
      exact h2 k b hk
    · intro b hb
      simp only [flushAndOpen, hc] at hb ⊢
      injection hb with hb
      subst hb
      simp [Block.setCharacterSize]
  | some c =>
    refine ⟨?_, ?_, ?_⟩
    · simp [flushAndOpen, hc, h1, totalCorrection_append, totalCorrection,
        blockCorrection]
    · intro k b hk
      simp only [flushAndOpen, hc] at hk ⊢
      rcases Nat.lt_trichotomy k st.blocks.length with hlt | heq | hgt
      · rw [List.get?_append hlt] at hk
        rw [List.take_append_of_le_length (Nat.le_of_lt hlt)]
        exact h2 k b hk
      · subst heq
        rw [List.get?_concat_length] at hk
        injection hk with hk
        subst hk
        rw [List.take_left]
        exact (h3 _ hc).trans h1
      · rw [List.get?_eq_none.2 (by simp; omega)] at hk
        cases hk
    · intro b hb
      simp only [flushAndOpen, hc] at hb ⊢
      injection hb with hb
      subst hb
      simp [Block.setCharacterSize]

theorem bdInv_step (avg : Nat) (st : BuildState) (w : Nat)
    (h : bdInv avg st) : bdInv avg (buildStep avg st w) := by
  unfold buildStep
  split
  · split
    · exact h
    · split
      · rename_i b hc
        split
        · exact bdInv_flushAndOpen avg st w h
        · obtain ⟨h1, h2, h3⟩ := h
          refine ⟨h1, h2, ?_⟩
          intro b' hb'
          simp only at hb'
          injection hb' with hb'
          subst hb'
          simpa [Block.incrementCharactersCount] using h3 b hc
      · exact bdInv_flushAndOpen avg st w h
  · exact bdInv_flushAndOpen avg st w h

theorem bdInv_fold (avg : Nat) (ws : List Nat) (st : BuildState)
    (h : bdInv avg st) :
    bdInv avg (List.foldl (buildStep avg) st ws) := by
  induction ws generalizing st with
  | nil => exact h
  | cons w rest ih => exact ih _ (bdInv_step avg st w h)

theorem bdInv_emit (avg : Nat) (st : BuildState) (h : bdInv avg st) :
    ∀ k b, (emit st).get? k = some b →
      b.firstByteDifference = totalCorrection avg ((emit st).take k) := by
  obtain ⟨h1, h2, h3⟩ := h
  intro k b hk
  unfold emit at hk ⊢
  cases hc : st.currentBlock with
  | none =>
    simp only [hc] at hk ⊢
    rw [List.append_nil] at hk ⊢
    exact h2 k b hk
  | some c =>
    simp only [hc] at hk ⊢
    rcases Nat.lt_trichotomy k st.blocks.length with hlt | heq | hgt
    · rw [List.get?_append hlt] at hk
      rw [List.take_append_of_le_length (Nat.le_of_lt hlt)]
      exact h2 k b hk
    · subst heq
      rw [List.get?_concat_length] at hk
      cases hk
      rw [List.take_left]
      exact h1 ▸ h3 _ hc
    · rw [List.get?_eq_none.2 (by simp; omega)] at hk
      cases hk

/-- C4: in every evaluated layout produced by the builder, each block's
`firstByteDifference` equals the sum, over all blocks flushed before it (the
blocks preceding it in the sorted set), of
`charactersCount * (characterSize - averageCharacterSize)`. -/
theorem prefixCorrection_c4 (ws : List Nat) (k : Nat) (b : Block)
    (h : (Layout.getFor ws).blocks.get? k = some b) :
    b.firstByteDifference =
      totalCorrection (Layout.getFor ws).averageCharacterSize
        ((Layout.getFor ws).blocks.take k) := by
  by_cases hA : ws.length = ws.sum
  · simp [Layout.getFor, hA] at h
  · have hinit : bdInv (natRound ws.sum ws.length % 256)
        (initState (natRound ws.sum ws.length % 256)) := by
      refine ⟨by simp [initState, totalCorrection], ?_, ?_⟩ <;>
        simp [initState]
    have hfold := bdInv_fold (natRound ws.sum ws.length % 256) ws _ hinit
    have := bdInv_emit _ _ hfold k b
    simp only [Layout.getFor, hA, if_neg hA] at h ⊢
    exact this h

/-- Witness for C4 at the concrete buffer [3,1,2,2] and its third block. -/
theorem prefixCorrection_c4_witness :
    Block.firstByteDifference ⟨2, 0, 0, 1⟩ =
      totalCorrection (Layout.getFor [3, 1, 2, 2]).averageCharacterSize
        ((Layout.getFor [3, 1, 2, 2]).blocks.take 2) :=
  prefixCorrection_c4 [3, 1, 2, 2] 2 ⟨2, 0, 0, 1⟩ (by decide)

end UC

namespace UC

/-- C9: for every buffer whose grapheme-cluster count equals its byte length,
the built layout has `averageCharacterSize = 1` and no blocks and reports
ASCII; and `isASCII` holds of a layout iff `averageCharacterSize == 1` and
the block set is empty. -/
theorem asciiLayout_c9 :
    (∀ ws : List Nat, ws.length = ws.sum →
      (Layout.getFor ws).averageCharacterSize = 1 ∧
      (Layout.getFor ws).blocks = [] ∧
      (Layout.getFor ws).isASCII = true) ∧
    (∀ l : Layout, l.isASCII = true ↔
      (l.averageCharacterSize = 1 ∧ l.blocks = [])) := by
  constructor
  · intro ws h
    simp [Layout.getFor, h, Layout.isASCII]
  · intro l
    simp [Layout.isASCII, List.isEmpty_iff]

/-- Witness for C9 at the all-single-byte buffer [1, 1]. -/
theorem asciiLayout_c9_witness : (Layout.getFor [1, 1]).isASCII = true :=
  (asciiLayout_c9.1 [1, 1] rfl).2.2

/-- C10: appending an empty byte sequence to a string is a complete no-op
(buffer and cached layout, evaluated or not, are kept exactly); appending a
non-empty sequence concatenates the buffers, and leaves the cached layout
`NOT_EVALUATED` whenever the appended part is at least as large as the old
buffer or the layout was previously evaluated. -/
theorem append_c10 (s : MString) (str : List Nat) :
    s.appendBytes [] = s ∧
    (str ≠ [] →
      (s.appendBytes str).bytes = s.bytes ++ str ∧
      ((s.bytes.length ≤ str.length ∨ s.cachedLayout.isEvaluated = true) →
        (s.appendBytes str).cachedLayout.isEvaluated = false)) := by
  constructor
  · simp [MString.appendBytes]
  · intro hne
    have hstr : str.isEmpty = false := by
      simpa [List.isEmpty_iff] using hne
    constructor
    · simp only [MString.appendBytes, hstr, Bool.false_eq_true, if_false]
      split <;> split <;> rfl
    · intro hcond
      simp only [MString.appendBytes, hstr, Bool.false_eq_true, if_false]
      rcases hcond with hlen | heval
      · simp only [if_pos hlen]
        split
        · simp [defaultLayout, Layout.isEvaluated]
        · simp [defaultLayout, Layout.isEvaluated]
      · split
        · split
          · simp [defaultLayout, Layout.isEvaluated]
          · simp [defaultLayout, Layout.isEvaluated]
        · split
          · simp [defaultLayout, Layout.isEvaluated]
          · rename_i hnot
            rw [Bool.and_eq_true, Bool.not_eq_true'] at hnot
            exfalso
            apply hnot
            constructor
            · simp [List.isEmpty_iff, hne]
            · exact heval

/-- Witness for C10: appending [8, 9] to a one-byte string with an evaluated
layout concatenates the bytes and clears the layout. -/
theorem append_c10_witness :
    (MString.appendBytes ⟨[7], defaultLayout⟩ [8, 9]).bytes = [7, 8, 9] ∧
    (MString.appendBytes ⟨[7], defaultLayout⟩ [8, 9]).cachedLayout.isEvaluated
      = false := by
  have h := (append_c10 ⟨[7], defaultLayout⟩ [8, 9]).2 (by decide)
  exact ⟨h.1, h.2 (Or.inl (by decide))⟩

/-- C5 (code bug): for a single grapheme cluster of 256 bytes the computed
average `round(256 / 1) = 256` does not fit the 8-bit bitfield; the source
stores it wrapped to `0`, which is the `NOT_EVALUATED` sentinel, and no
`OverflowError` exists anywhere in the repository (the build is `noexcept`).
The freshly built layout therefore reports `isEvaluated() == false`,
contradicting the source's own `assert(isEvaluated())` in
`getCharacterByteIndexAndSize` on any subsequent access. -/
theorem averageOverflow_c5_bug :
    natRound (List.sum [256]) (List.length [256]) = 256 ∧
    (Layout.getFor [256]).averageCharacterSize = 0 ∧
    (Layout.getFor [256]).isEvaluated = false := by decide

/-- C3 counterexample: in the build for widths [4, 2, 1, 1] the average is 2
and the middle stored block has `characterSize = 2 = averageCharacterSize`
with `charactersCount = 1` (so it is not a same-width continuation after a
16-character cap): the character of average width at index 1 did start a new
block, refuting the claim that average-width characters are never placed in
blocks. -/
theorem averageWidthBlock_c3_counterexample :
    (Layout.getFor [4, 2, 1, 1]).averageCharacterSize = 2 ∧
    (Layout.getFor [4, 2, 1, 1]).blocks.map Block.characterSize = [4, 2, 1] ∧
    (Layout.getFor [4, 2, 1, 1]).blocks.map Block.charactersCount = [1, 1, 2]
    := by decide

/-- C3 amended: a character of width equal to `averageCharacterSize` is
skipped iff the previous character size equals the average (no
differing-width run is open); when a block of a different width is open, the
arriving average-width character flushes that block and itself starts a new
single-character block of average width at its own index. -/
theorem averageWidthChar_c3_amended (avg : Nat) (st : BuildState) (w : Nat) :
    (w = avg → st.previousCharacterSize = avg →
      buildStep avg st w = { st with characterIndex := st.characterIndex + 1 }) ∧
    (∀ b : Block, st.currentBlock = some b → st.previousCharacterSize ≠ avg →
      w = avg → 1 ≤ avg → avg ≤ 16 →
      (buildStep avg st w).blocks = st.blocks ++ [b] ∧
      ∃ nb : Block, (buildStep avg st w).currentBlock = some nb ∧
        nb.firstCharacter = st.characterIndex ∧
        nb.characterSize = avg ∧ nb.charactersCount = 1) := by
  constructor
  · intro hw hp
    rw [buildStep, if_pos (hw.trans hp.symm), if_pos hp]
  · intro b hb hp hw h1 h16
    have hne : ¬ (w = st.previousCharacterSize) := fun h =>
      hp (h.symm.trans hw)
    rw [buildStep, if_neg hne]
    simp only [flushAndOpen, hb]
    refine ⟨trivial, ?_⟩
    refine ⟨_, rfl, rfl, ?_, rfl⟩
    subst hw
    simp only [Block.setCharacterSize, Block.characterSize]
    omega

/-- Witness for C3's amended statement at a concrete open block of width 3
with average 2 and an arriving character of width 2. -/
theorem averageWidthChar_c3_amended_witness :
    (buildStep 2 ⟨3, some ⟨0, 0, 0, 2⟩, 1, 0, []⟩ 2).blocks = [⟨0, 0, 0, 2⟩] ∧
    ∃ nb : Block,
      (buildStep 2 ⟨3, some ⟨0, 0, 0, 2⟩, 1, 0, []⟩ 2).currentBlock = some nb ∧
      nb.firstCharacter = 1 ∧ nb.characterSize = 2 ∧ nb.charactersCount = 1 :=
  (averageWidthChar_c3_amended 2 ⟨3, some ⟨0, 0, 0, 2⟩, 1, 0, []⟩ 2).2
    ⟨0, 0, 0, 2⟩ rfl (by decide) rfl (by decide) (by decide)

/-- C6 counterexample: for the two-character single-byte buffer [1, 1] the
out-of-range access at index 2 (which equals `size`) does return a value —
the extrapolated byte range (2, 1), one past the end of the buffer — instead
of failing: the source guards the range only with a debug `assert`. -/
theorem outOfRange_c6_counterexample :
    (Layout.getFor [1, 1]).size ≤ 2 ∧
    Layout.getCharacterByteIndexAndSize (Layout.getFor [1, 1]) 2 =
      ((2 : Int), 1) := by decide

/-- C6 amended: with assertions disabled an out-of-range query is answered
like any other: on a layout built from a pure single-byte buffer every index
`i` (in range or not) yields the extrapolated byte range `(i, 1)`; the query
never mutates the layout (it is a pure/const computation). -/
theorem outOfRange_c6_amended (ws : List Nat) (h : ws.length = ws.sum)
    (i : Nat) :
    Layout.getCharacterByteIndexAndSize (Layout.getFor ws) i =
      ((i : Int), 1) := by
  simp [Layout.getFor, h, Layout.getCharacterByteIndexAndSize,
    Layout.estimateFirstByteIndex]

/-- Witness for C6's amended statement: index 5 on the two-character buffer. -/
theorem outOfRange_c6_amended_witness :
    Layout.getCharacterByteIndexAndSize (Layout.getFor [1, 1]) 5 =
      ((5 : Int), 1) :=
  outOfRange_c6_amended [1, 1] rfl 5

/-- C8 counterexample: the relative index 0 is non-positive, but `at(0)` on
the two-character buffer [1, 1] resolves to absolute index 0 — not to
`characterCount + 0 = 2` as the claim states: the signed `operator[]` routes
only strictly negative indices through `absoluteIndex`. -/
theorem nonPositiveIndex_c8_counterexample :
    ¬ ((Layout.getFor [1, 1]).atSigned 0 =
        (Layout.getFor [1, 1]).getCharacterByteIndexAndSize
          (((Layout.getFor [1, 1]).size : Int) + 0).toNat) := by decide

/-- C8 amended: every strictly negative relative index `r` with magnitude at
most `characterCount` resolves to absolute index `characterCount + r`; in
particular `at(-(k+1))` equals `at(size() - 1 - k)` for `k < size()`. -/
theorem negativeIndex_c8_amended :
    (∀ (l : Layout) (r : Int), r < 0 → -r ≤ (l.size : Int) → l.size < 2 ^ 32 →
      l.atSigned r = l.getCharacterByteIndexAndSize ((l.size : Int) + r).toNat) ∧
    (∀ (l : Layout) (k : Nat), k < l.size → l.size < 2 ^ 32 →
      l.atSigned (-((k : Int) + 1)) =
        l.getCharacterByteIndexAndSize (l.size - 1 - k)) := by
  have main : ∀ (l : Layout) (r : Int), r < 0 → -r ≤ (l.size : Int) →
      l.size < 2 ^ 32 →
      l.atSigned r = l.getCharacterByteIndexAndSize ((l.size : Int) + r).toNat := by
    intro l r hr hmag hsize
    rw [Layout.atSigned, if_pos hr, Layout.absoluteIndex,
      Int.emod_eq_of_lt (by omega) (by push_cast; omega)]
  refine ⟨main, ?_⟩
  intro l k hk hsize
  rw [main l (-((k : Int) + 1)) (by omega) (by omega) hsize]
  congr 1
  omega

/-- Witness for C8's amended statement: `at(-1)` on the two-character buffer
equals `at(1)`. -/
theorem negativeIndex_c8_witness :
    (Layout.getFor [1, 1]).atSigned (-((0 : Int) + 1)) =
      (Layout.getFor [1, 1]).getCharacterByteIndexAndSize 1 :=
  negativeIndex_c8_amended.2 (Layout.getFor [1, 1]) 0 (by decide) (by decide)

end UC

namespace UC

/-! ### The shape of the block list the builder produces

`coversTail avg prev pos off Δ tail` says: the block list `Δ` explains the
character widths `tail` (the widths of the characters from index `pos` on),
where `off` is the byte offset of character `pos` (the sum of all earlier
widths) and `prev` is the width recorded when the last block before `pos` was
opened (`avg` if none was).  Characters outside all blocks have width `avg`,
a gap may only follow an average-width block, every block's
`firstByteDifference` is the offset of its first character minus the
average-based estimate, and a block's characters all have its stored size. -/
def coversTail (avg : Nat) : Nat → Nat → Int → List Block → List Nat → Prop
  | prev, _pos, _off, [], tail =>
      (∀ w ∈ tail, w = avg) ∧ (tail ≠ [] → prev = avg)
  | prev, pos, off, b :: Δ, tail =>
      pos ≤ b.firstCharacter ∧
      (pos < b.firstCharacter → prev = avg) ∧
      (∀ j, j < b.firstCharacter - pos → tail.get? j = some avg) ∧
      b.firstByteDifference = off - (avg : Int) * (pos : Int) ∧
      (∀ j, j < b.charactersCount →
        tail.get? (b.firstCharacter - pos + j) = some b.characterSize) ∧
      coversTail avg b.characterSize (b.firstCharacter + b.charactersCount)
        (off + ((b.firstCharacter - pos : Nat) : Int) * (avg : Int) +
          (b.charactersCount : Int) * (b.characterSize : Int))
        Δ (tail.drop (b.firstCharacter - pos + b.charactersCount))

theorem coversTail_blocks_ge (avg : Nat) :
    ∀ (Δ : List Block) (prev pos : Nat) (off : Int) (tail : List Nat),
      coversTail avg prev pos off Δ tail →
      ∀ b ∈ Δ, pos ≤ b.firstCharacter := by
  intro Δ
  induction Δ with
  | nil => intro prev pos off tail _ b hb; cases hb
  | cons x xs ih =>
    intro prev pos off tail hc b hb
    simp only [coversTail] at hc
    rcases List.mem_cons.1 hb with rfl | hb
    · exact hc.1
    · have hx := ih _ _ _ _ hc.2.2.2.2.2 b hb
      have := hc.1
      omega

/-- Sum of a `take` whose entries are all known pointwise. -/
theorem sum_take_of_get? :
    ∀ (tail : List Nat) (m a : Nat),
      (∀ j, j < m → tail.get? j = some a) → (tail.take m).sum = m * a := by
  intro tail
  induction tail with
  | nil =>
    intro m a h
    cases m with
    | zero => simp
    | succ m => exact absurd (h 0 (by omega)) (by simp)
  | cons x xs ih =>
    intro m a h
    cases m with
    | zero => simp
    | succ m =>
      have hx : x = a := by simpa using h 0 (by omega)
      have hxs : (xs.take m).sum = m * a :=
        ih m a (fun j hj => by simpa using h (j + 1) (by omega))
      subst hx
      simp [List.take_succ_cons, hxs, Nat.succ_mul]
      ring

/-- Entries of a list whose `take` is a `replicate`. -/
theorem get?_of_take_replicate {rest : List Nat} {t a : Nat}
    (h : rest.take t = List.replicate t a) :
    ∀ k, k < t → rest.get? k = some a := by
  intro k hk
  have h1 : (rest.take t).get? k = some a := by
    rw [h, List.get?_eq_getElem?, List.getElem?_replicate, if_pos hk]
  rwa [List.get?_take hk] at h1

/-! ### The query, decomposed for the induction -/

/-- `getCharacterByteIndexAndSize` with an explicit fallback correction: the
correction applied when no block lies at or before the index.  The source
always uses fallback 0; the generalized form supports peeling blocks off the
front of the list. -/
def queryOn (avg : Nat) (fallback : Int) (blocks : List Block) (i : Nat) :
    Int × Nat :=
  match getNearestLeftBlock blocks i with
  | none => ((i : Int) * (avg : Int) + fallback, avg)
  | some b =>
      if b.containsCharacterIndex i then
        ((i : Int) * (avg : Int) + b.firstByteDifference +
          ((i - b.firstCharacter : Nat) : Int) * characterSizeDifference avg b,
         b.characterSize)
      else ((i : Int) * (avg : Int) + b.firstByteDifference, avg)

theorem queryOn_none {avg : Nat} {fb : Int} {blocks : List Block} {i : Nat}
    (h : getNearestLeftBlock blocks i = none) :
    queryOn avg fb blocks i = ((i : Int) * (avg : Int) + fb, avg) := by
  unfold queryOn
  rw [h]

theorem queryOn_some {avg : Nat} {fb : Int} {blocks : List Block} {i : Nat}
    {b : Block} (h : getNearestLeftBlock blocks i = some b) :
    queryOn avg fb blocks i =
      if b.containsCharacterIndex i then
        ((i : Int) * (avg : Int) + b.firstByteDifference +
          ((i - b.firstCharacter : Nat) : Int) * characterSizeDifference avg b,
         b.characterSize)
      else ((i : Int) * (avg : Int) + b.firstByteDifference, avg) := by
  unfold queryOn
  rw [h]

/-- The source query equals `queryOn` with fallback 0. -/
theorem getCharacterByteIndexAndSize_eq_queryOn (l : Layout) (i : Nat) :
    l.getCharacterByteIndexAndSize i =
      queryOn l.averageCharacterSize 0 l.blocks i := by
  by_cases hE : l.blocks.isEmpty
  · have hnil : l.blocks = [] := List.isEmpty_iff.1 hE
    have hN : getNearestLeftBlock l.blocks i = none := by
      rw [hnil]; rfl
    rw [queryOn_none hN]
    simp [Layout.getCharacterByteIndexAndSize, hE, Layout.estimateFirstByteIndex]
  · cases hN : getNearestLeftBlock l.blocks i with
    | none =>
      rw [queryOn_none hN]
      simp [Layout.getCharacterByteIndexAndSize, hE, hN,
        Layout.estimateFirstByteIndex]
    | some b =>
      rw [queryOn_some hN]
      simp only [Layout.getCharacterByteIndexAndSize, hE, hN,
        Layout.estimateFirstByteIndex, Bool.false_eq_true, if_false]

theorem nearest_cons_gt {b : Block} {Δ : List Block} {i : Nat}
    (h : i < b.firstCharacter) :
    getNearestLeftBlock (b :: Δ) i = none := by
  unfold getNearestLeftBlock
  rw [List.takeWhile_cons_of_neg (by simp; omega)]
  rfl

theorem nearest_cons_le {b : Block} {Δ : List Block} {i : Nat}
    (h : b.firstCharacter ≤ i) :
    getNearestLeftBlock (b :: Δ) i =
      some ((getNearestLeftBlock Δ i).getD b) := by
  unfold getNearestLeftBlock
  rw [List.takeWhile_cons_of_pos (by simpa using h)]
  cases ht : Δ.takeWhile (fun c => decide (c.firstCharacter ≤ i)) with
  | nil => rfl
  | cons x xs =>
    rw [List.getLast?_cons_cons]
    cases hl : (x :: xs).getLast? with
    | none => exact absurd (List.getLast?_eq_none_iff.1 hl) (by simp)
    | some y => rfl

end UC

namespace UC

/-- Query correctness over a covering block list.  If `Δ` covers the widths
`tail` of the characters from position `pos` (byte offset `off`) on, then for
every character index `i` in range the generalized query resolves to the
true byte offset and the true width. -/
theorem queryOn_covers (avg : Nat) :
    ∀ (Δ : List Block) (prev pos : Nat) (off : Int) (tail : List Nat),
      coversTail avg prev pos off Δ tail →
      ∀ i wi : Nat, pos ≤ i → tail.get? (i - pos) = some wi →
      queryOn avg (off - (avg : Int) * (pos : Int)) Δ i =
        (off + (((tail.take (i - pos)).sum : Nat) : Int), wi) := by
  intro Δ
  induction Δ with
  | nil =>
    intro prev pos off tail hc i wi hpos hwi
    simp only [coversTail] at hc
    obtain ⟨hall, _⟩ := hc
    rw [queryOn_none (show getNearestLeftBlock [] i = none from rfl)]
    have hlen : i - pos < tail.length := by
      rcases List.get?_eq_some.1 hwi with ⟨h, _⟩
      exact h
    have hpt : ∀ j, j < i - pos → tail.get? j = some avg := by
      intro j hj
      have hjl : j < tail.length := by omega
      rw [List.get?_eq_get hjl]
      exact congrArg some (hall _ (List.get_mem tail _ _))
    have hwia : wi = avg := hall wi (List.get?_mem hwi)
    have hsum := sum_take_of_get? tail (i - pos) avg hpt
    subst hwia
    rw [hsum]
    simp only [Prod.mk.injEq]
    refine ⟨?_, trivial⟩
    have e : ((i - pos : Nat) : Int) = (i : Int) - (pos : Int) := by omega
    push_cast
    rw [e]
    ring
  | cons b Δ' ih =>
    intro prev pos off tail hc i wi hpos hwi
    simp only [coversTail] at hc
    obtain ⟨hpb, hgp, hgapw, hbd, hpure, hrec⟩ := hc
    by_cases hib : i < b.firstCharacter
    · rw [queryOn_none (nearest_cons_gt hib)]
      have hm : i - pos < b.firstCharacter - pos := by omega
      have hwia : wi = avg :=
        Option.some.inj (hwi.symm.trans (hgapw (i - pos) hm))
      have hsum := sum_take_of_get? tail (i - pos) avg
        (fun j hj => hgapw j (by omega))
      subst hwia
      rw [hsum]
      simp only [Prod.mk.injEq]
      refine ⟨?_, trivial⟩
      have e : ((i - pos : Nat) : Int) = (i : Int) - (pos : Int) := by omega
      push_cast
      rw [e]
      ring
    · push_neg at hib
      by_cases hin : i < b.firstCharacter + b.charactersCount
      · have hnone : getNearestLeftBlock Δ' i = none := by
          cases hΔ : Δ' with
          | nil => rfl
          | cons x xs =>
            apply nearest_cons_gt
            have hge := coversTail_blocks_ge avg Δ' _ _ _ _ hrec x
              (by rw [hΔ]; exact List.mem_cons_self _ _)
            omega
        have hN : getNearestLeftBlock (b :: Δ') i = some b := by
          rw [nearest_cons_le hib, hnone]
          rfl
        rw [queryOn_some hN,
          if_pos (show b.containsCharacterIndex i = true by
            simp only [Block.containsCharacterIndex, Bool.and_eq_true,
              decide_eq_true_eq]
            omega)]
        have hd : i - pos = (b.firstCharacter - pos) + (i - b.firstCharacter) :=
          by omega
        have hwis : wi = b.characterSize := by
          have hp := hpure (i - b.firstCharacter) (by omega)
          rw [← hd] at hp
          exact Option.some.inj (hwi.symm.trans hp)
        have hsum : (tail.take (i - pos)).sum =
            (b.firstCharacter - pos) * avg +
              (i - b.firstCharacter) * b.characterSize := by
          rw [hd, List.take_add, List.sum_append,
            sum_take_of_get? tail _ avg (fun j hj => hgapw j hj),
            sum_take_of_get? (tail.drop (b.firstCharacter - pos)) _
              b.characterSize
              (fun j hj => by rw [List.get?_drop]; exact hpure j (by omega))]
        subst hwis
        rw [hsum]
        simp only [Prod.mk.injEq]
        refine ⟨?_, trivial⟩
        have e1 : ((i - b.firstCharacter : Nat) : Int) =
            (i : Int) - (b.firstCharacter : Int) := by omega
        have e2 : ((b.firstCharacter - pos : Nat) : Int) =
            (b.firstCharacter : Int) - (pos : Int) := by omega
        rw [hbd]
        simp only [characterSizeDifference]
        push_cast
        rw [e1, e2]
        ring
      · push_neg at hin
        have hwi' : (tail.drop
              (b.firstCharacter - pos + b.charactersCount)).get?
            (i - (b.firstCharacter + b.charactersCount)) = some wi := by
          rw [List.get?_drop,
            show b.firstCharacter - pos + b.charactersCount +
                (i - (b.firstCharacter + b.charactersCount)) = i - pos
              by omega]
          exact hwi
        have IH := ih b.characterSize (b.firstCharacter + b.charactersCount)
          (off + ((b.firstCharacter - pos : Nat) : Int) * (avg : Int) +
            (b.charactersCount : Int) * (b.characterSize : Int))
          (tail.drop (b.firstCharacter - pos + b.charactersCount)) hrec i wi
          hin hwi'
        have hd : i - pos = (b.firstCharacter - pos) + b.charactersCount +
            (i - (b.firstCharacter + b.charactersCount)) := by omega
        have hsum : (tail.take (i - pos)).sum =
            (b.firstCharacter - pos) * avg +
              b.charactersCount * b.characterSize +
              ((tail.drop (b.firstCharacter - pos + b.charactersCount)).take
                (i - (b.firstCharacter + b.charactersCount))).sum := by
          rw [hd, List.take_add, List.take_add, List.sum_append,
            List.sum_append,
            sum_take_of_get? tail _ avg (fun j hj => hgapw j hj),
            sum_take_of_get? (tail.drop (b.firstCharacter - pos)) _
              b.characterSize
              (fun j hj => by rw [List.get?_drop]; exact hpure j hj)]
        have e2 : ((b.firstCharacter - pos : Nat) : Int) =
            (b.firstCharacter : Int) - (pos : Int) := by omega
        cases hN2 : getNearestLeftBlock Δ' i with
        | some b2 =>
          have hN : getNearestLeftBlock (b :: Δ') i = some b2 := by
            rw [nearest_cons_le hib, hN2]
            rfl
          rw [queryOn_some hN]
          rw [queryOn_some hN2] at IH
          rw [IH, hsum]
          simp only [Prod.mk.injEq]
          refine ⟨?_, trivial⟩
          push_cast
          ring
        | none =>
          have hs : b.characterSize = avg := by
            cases hΔ : Δ' with
            | nil =>
              rw [hΔ] at hrec
              simp only [coversTail] at hrec
              refine hrec.2 ?_
              intro hnil
              rw [hnil] at hwi'
              simp at hwi'
            | cons x xs =>
              rw [hΔ] at hrec hN2
              simp only [coversTail] at hrec
              have hx : i < x.firstCharacter := by
                by_contra hxx
                push_neg at hxx
                rw [nearest_cons_le hxx] at hN2
                cases hN2
              exact hrec.2.1 (by omega)
          have hN : getNearestLeftBlock (b :: Δ') i = some b := by
            rw [nearest_cons_le hib, hN2]
            rfl
          rw [queryOn_some hN,
            if_neg (show ¬ b.containsCharacterIndex i = true by
              simp only [Block.containsCharacterIndex, Bool.and_eq_true,
                decide_eq_true_eq]
              omega)]
          rw [queryOn_none hN2] at IH
          have IH1 := congrArg Prod.fst IH
          have IH2 := congrArg Prod.snd IH
          simp only at IH1 IH2
          rw [hsum]
          simp only [Prod.mk.injEq]
          constructor
          · rw [hbd, hs]
            rw [hs] at IH1
            push_cast at IH1 ⊢
            rw [e2] at IH1 ⊢
            linear_combination IH1
          · exact IH2
end UC

namespace UC

/-! ### Small equations about the builder's step -/

theorem setCharacterSize_characterSize {x : Block} {w : Nat} (h1 : 1 ≤ w)
    (h16 : w ≤ 16) : (x.setCharacterSize w).characterSize = w := by
  simp only [Block.setCharacterSize, Block.characterSize]
  omega

theorem grow_characterSize (b : Block) (t : Nat) :
    (b.grow t).characterSize = b.characterSize := rfl

theorem grow_firstByteDifference (b : Block) (t : Nat) :
    (b.grow t).firstByteDifference = b.firstByteDifference := rfl

theorem grow_firstCharacter (b : Block) (t : Nat) :
    (b.grow t).firstCharacter = b.firstCharacter := rfl

theorem grow_charactersCount (b : Block) (t : Nat) :
    (b.grow t).charactersCount = b.charactersCount + t := by
  simp only [Block.grow, Block.charactersCount]
  omega

theorem grow_zero (b : Block) : b.grow 0 = b := rfl

theorem grow_grow (b : Block) (u t : Nat) :
    (b.grow u).grow t = b.grow (u + t) := by
  simp [Block.grow, Nat.add_assoc]

theorem incrementCharactersCount_eq_grow (b : Block) :
    b.incrementCharactersCount = b.grow 1 := rfl

theorem buildStep_skip {avg : Nat} {st : BuildState} {w : Nat}
    (h1 : w = st.previousCharacterSize) (h2 : st.previousCharacterSize = avg) :
    buildStep avg st w = { st with characterIndex := st.characterIndex + 1 } := by
  unfold buildStep
  rw [if_pos h1, if_pos h2]

theorem buildStep_join {avg : Nat} {st : BuildState} {w : Nat} {b : Block}
    (h1 : w = st.previousCharacterSize) (h2 : st.previousCharacterSize ≠ avg)
    (h3 : st.currentBlock = some b) (h4 : b.isFull = false) :
    buildStep avg st w =
      { st with currentBlock := some b.incrementCharactersCount
                characterIndex := st.characterIndex + 1 } := by
  unfold buildStep
  rw [if_pos h1, if_neg h2, h3]
  simp [h4]

theorem buildStep_flush_of_ne {avg : Nat} {st : BuildState} {w : Nat}
    (h1 : w ≠ st.previousCharacterSize) :
    buildStep avg st w = flushAndOpen avg st w := by
  unfold buildStep
  rw [if_neg h1]

theorem buildStep_flush_of_full {avg : Nat} {st : BuildState} {w : Nat}
    {b : Block} (h2 : st.previousCharacterSize ≠ avg)
    (h3 : st.currentBlock = some b) (h4 : b.isFull = true) :
    buildStep avg st w = flushAndOpen avg st w := by
  unfold buildStep
  by_cases h1 : w = st.previousCharacterSize
  · rw [if_pos h1, if_neg h2, h3]
    simp [h4]
  · rw [if_neg h1]

theorem flushAndOpen_characterIndex (avg : Nat) (st : BuildState) (w : Nat) :
    (flushAndOpen avg st w).characterIndex = st.characterIndex + 1 := rfl

theorem flushAndOpen_prev (avg : Nat) (st : BuildState) (w : Nat) :
    (flushAndOpen avg st w).previousCharacterSize = w := rfl

theorem flushAndOpen_currentBlock (avg : Nat) (st : BuildState) (w : Nat) :
    (flushAndOpen avg st w).currentBlock =
      some (Block.setCharacterSize
        { firstCharacter := st.characterIndex
          firstByteDifference := (flushAndOpen avg st w).byteDifference
          charactersCountMinusOne := 0
          characterSizeMinusOne := 0 } w) := rfl

theorem flushAndOpen_byteDifference_none {avg : Nat} {st : BuildState}
    {w : Nat} (hc : st.currentBlock = none) :
    (flushAndOpen avg st w).byteDifference = st.byteDifference := by
  simp [flushAndOpen, hc]

theorem flushAndOpen_byteDifference_some {avg : Nat} {st : BuildState}
    {w : Nat} {b : Block} (hc : st.currentBlock = some b) :
    (flushAndOpen avg st w).byteDifference =
      st.byteDifference +
        (b.charactersCount : Int) * characterSizeDifference avg b := by
  simp [flushAndOpen, hc]

theorem flushAndOpen_blocks_none {avg : Nat} {st : BuildState} {w : Nat}
    (hc : st.currentBlock = none) :
    (flushAndOpen avg st w).blocks = st.blocks := by
  simp [flushAndOpen, hc]

theorem flushAndOpen_blocks_some {avg : Nat} {st : BuildState} {w : Nat}
    {b : Block} (hc : st.currentBlock = some b) :
    (flushAndOpen avg st w).blocks = st.blocks ++ [b] := by
  simp [flushAndOpen, hc]

/-! ### The loop invariant of `getFor` -/

/-- Invariant tying the loop state at character `pos` (byte offset `off`) to
the consumed prefix: the character index matches, `previousCharacterSize`
agrees with the open block's stored size (or `avg` if none), a
differing-width open block's span ends exactly at `pos`, and the running
`byteDifference` (plus the open block's pending contribution) is the current
offset correction `off - avg * pos`. -/
def stateInv (avg : Nat) (cur : Option Block) (st : BuildState) (pos : Nat)
    (off : Int) : Prop :=
  st.characterIndex = pos ∧
  match cur with
  | none =>
      st.previousCharacterSize = avg ∧
      st.byteDifference = off - (avg : Int) * (pos : Int)
  | some b =>
      st.previousCharacterSize = b.characterSize ∧
      b.firstCharacter + b.charactersCount ≤ pos ∧
      (b.characterSize ≠ avg → b.firstCharacter + b.charactersCount = pos) ∧
      st.byteDifference +
          (b.charactersCount : Int) * characterSizeDifference avg b =
        off - (avg : Int) * (pos : Int)

/-- What the rest of the loop contributes: the new blocks it will emit after
the current state, described as a covering of the remaining widths.  For an
open block, `t` is the number of immediately following characters that still
join it. -/
def continuation (avg : Nat) (cur : Option Block) (pos : Nat) (off : Int)
    (suffix : List Block) (rest : List Nat) : Prop :=
  match cur with
  | none => coversTail avg avg pos off suffix rest
  | some b => ∃ t Δ, suffix = b.grow t :: Δ ∧
      rest.take t = List.replicate t b.characterSize ∧
      (b.characterSize = avg → t = 0) ∧
      coversTail avg b.characterSize (pos + t)
        (off + (t : Int) * (b.characterSize : Int)) Δ (rest.drop t)

/-- Prepending one character of average width to a covering. -/
theorem coversTail_absorb (avg pos : Nat) (off : Int) (Δ : List Block)
    (rest : List Nat)
    (h : coversTail avg avg (pos + 1) (off + (avg : Int)) Δ rest) :
    coversTail avg avg pos off Δ ((avg : Nat) :: rest) := by
  cases Δ with
  | nil =>
    simp only [coversTail] at h ⊢
    refine ⟨?_, fun _ => trivial⟩
    intro w hw
    rcases List.mem_cons.1 hw with rfl | hw
    · rfl
    · exact h.1 w hw
  | cons b Δ' =>
    simp only [coversTail] at h ⊢
    obtain ⟨h1, _, h3, h4, h5, h6⟩ := h
    refine ⟨by omega, fun _ => trivial, ?_, ?_, ?_, ?_⟩
    · intro j hj
      cases j with
      | zero => rfl
      | succ j =>
        have : j < b.firstCharacter - (pos + 1) := by omega
        simpa using h3 j this
    · rw [h4]
      push_cast
      ring
    · intro j hj
      have e : b.firstCharacter - pos + j =
          (b.firstCharacter - (pos + 1) + j) + 1 := by omega
      rw [e]
      simpa using h5 j hj
    · have e1 : b.firstCharacter - pos + b.charactersCount =
          (b.firstCharacter - (pos + 1) + b.charactersCount) + 1 := by omega
      rw [e1, List.drop_succ_cons]
      have e2 : off + ((b.firstCharacter - pos : Nat) : Int) * (avg : Int) +
            (b.charactersCount : Int) * (b.characterSize : Int) =
          (off + (avg : Int)) +
            ((b.firstCharacter - (pos + 1) : Nat) : Int) * (avg : Int) +
            (b.charactersCount : Int) * (b.characterSize : Int) := by
        have e3 : ((b.firstCharacter - pos : Nat) : Int) =
            ((b.firstCharacter - (pos + 1) : Nat) : Int) + 1 := by omega
        rw [e3]
        ring
      rw [e2]
      exact h6

end UC

namespace UC

/-- Effect of a flush-and-open step followed by the rest of the loop: the
freshly opened block (grown by however many characters still join it)
followed by the later blocks covers `w :: rest'`, and the emitted blocks
extend the flushed ones. -/
theorem flushOpen_extends (avg w : Nat) (rest' : List Nat)
    (st : BuildState) (pos : Nat) (off : Int)
    (hw1 : 1 ≤ w) (hw16 : w ≤ 16)
    (hwrest : ∀ x ∈ rest', 1 ≤ x ∧ x ≤ 16)
    (hidx : st.characterIndex = pos)
    (hbd : (flushAndOpen avg st w).byteDifference =
      off - (avg : Int) * (pos : Int))
    (ih : ∀ (st' : BuildState) (pos' : Nat) (off' : Int),
      (∀ x ∈ rest', 1 ≤ x ∧ x ≤ 16) →
      stateInv avg st'.currentBlock st' pos' off' →
      ∃ suffix,
        emit (List.foldl (buildStep avg) st' rest') = st'.blocks ++ suffix ∧
        continuation avg st'.currentBlock pos' off' suffix rest') :
    ∃ t Δ,
      emit (List.foldl (buildStep avg) (flushAndOpen avg st w) rest') =
        (flushAndOpen avg st w).blocks ++
          ((Block.setCharacterSize
            { firstCharacter := st.characterIndex
              firstByteDifference := (flushAndOpen avg st w).byteDifference
              charactersCountMinusOne := 0
              characterSizeMinusOne := 0 } w).grow t :: Δ) ∧
      ∀ prevP : Nat,
        coversTail avg prevP pos off
          ((Block.setCharacterSize
            { firstCharacter := st.characterIndex
              firstByteDifference := (flushAndOpen avg st w).byteDifference
              charactersCountMinusOne := 0
              characterSizeMinusOne := 0 } w).grow t :: Δ)
          (w :: rest') := by
  set nb : Block := Block.setCharacterSize
    { firstCharacter := st.characterIndex
      firstByteDifference := (flushAndOpen avg st w).byteDifference
      charactersCountMinusOne := 0
      characterSizeMinusOne := 0 } w with hnb
  have hcur : (flushAndOpen avg st w).currentBlock = some nb :=
    flushAndOpen_currentBlock avg st w
  have hsize : nb.characterSize = w := by
    rw [hnb]
    exact setCharacterSize_characterSize hw1 hw16
  have hf : nb.firstCharacter = pos := by
    rw [hnb]
    simp only [Block.setCharacterSize]
    exact hidx
  have hbdnb : nb.firstByteDifference = off - (avg : Int) * (pos : Int) := by
    rw [hnb]
    simpa only [Block.setCharacterSize] using hbd
  have hcnt : nb.charactersCount = 1 := by
    rw [hnb]
    simp [Block.setCharacterSize, Block.charactersCount]
  have hinv' : stateInv avg (flushAndOpen avg st w).currentBlock
      (flushAndOpen avg st w) (pos + 1) (off + (w : Int)) := by
    rw [hcur]
    refine ⟨by rw [flushAndOpen_characterIndex, hidx], ?_⟩
    refine ⟨by rw [flushAndOpen_prev, hsize], by omega, fun _ => by omega, ?_⟩
    rw [hbd, hcnt]
    simp only [characterSizeDifference, hsize]
    push_cast
    ring
  obtain ⟨suffix, hemit, hcont⟩ :=
    ih (flushAndOpen avg st w) (pos + 1) (off + (w : Int)) hwrest hinv'
  rw [hcur] at hcont
  simp only [continuation] at hcont
  obtain ⟨t, Δ, hsfx, htake, _, hcov⟩ := hcont
  rw [hsize] at hcov htake
  refine ⟨t, Δ, ?_, ?_⟩
  · rw [hemit, hsfx]
  · intro prevP
    simp only [coversTail]
    refine ⟨?_, ?_, ?_, ?_, ?_, ?_⟩
    · rw [grow_firstCharacter, hf]
    · intro hlt
      rw [grow_firstCharacter, hf] at hlt
      exact absurd hlt (lt_irrefl pos)
    · intro j hj
      rw [grow_firstCharacter, hf] at hj
      exact absurd hj (by omega)
    · rw [grow_firstByteDifference, hbdnb]
    · intro j hj
      rw [grow_charactersCount, hcnt] at hj
      rw [show (nb.grow t).firstCharacter - pos + j = j by
        rw [grow_firstCharacter, hf]; omega]
      rw [grow_characterSize, hsize]
      cases j with
      | zero => rfl
      | succ k =>
        have hk : k < t := by omega
        have hgk := get?_of_take_replicate htake k hk
        simpa using hgk
    · rw [show (nb.grow t).firstCharacter - pos + (nb.grow t).charactersCount
            = t + 1 by
          rw [grow_firstCharacter, grow_charactersCount, hf, hcnt]; omega,
        List.drop_succ_cons]
      rw [grow_characterSize, grow_firstCharacter, grow_charactersCount,
        hsize, hf, hcnt]
      rw [show pos + (1 + t) = pos + 1 + t by omega]
      rw [show off + ((pos - pos : Nat) : Int) * (avg : Int) +
            ((1 + t : Nat) : Int) * (w : Int) =
          (off + (w : Int)) + (t : Int) * (w : Int) by
        rw [Nat.sub_self]; push_cast; ring]
      exact hcov

end UC

namespace UC

/-- The loop of `getFor`, started in any state satisfying the invariant,
emits block lists extending the flushed ones, and the new part covers the
remaining widths. -/
theorem buildGo_covers (avg : Nat) :
    ∀ (rest : List Nat) (st : BuildState) (pos : Nat) (off : Int),
      (∀ x ∈ rest, 1 ≤ x ∧ x ≤ 16) →
      stateInv avg st.currentBlock st pos off →
      ∃ suffix,
        emit (List.foldl (buildStep avg) st rest) = st.blocks ++ suffix ∧
        continuation avg st.currentBlock pos off suffix rest := by
  intro rest
  induction rest with
  | nil =>
    intro st pos off _ _
    rcases Option.eq_none_or_eq_some st.currentBlock with hc | ⟨b, hc⟩
    · refine ⟨[], by simp [emit, hc], ?_⟩
      rw [hc]
      simp only [continuation, coversTail]
      exact ⟨by simp, by simp⟩
    · refine ⟨[b], by simp [emit, hc], ?_⟩
      rw [hc]
      simp only [continuation]
      refine ⟨0, [], by rw [grow_zero], by simp, fun _ => rfl, ?_⟩
      simp only [coversTail]
      exact ⟨by simp, by simp⟩
  | cons w rest' ih =>
    intro st pos off hwid hinv
    have hw1 : 1 ≤ w := (hwid w (List.mem_cons_self _ _)).1
    have hw16 : w ≤ 16 := (hwid w (List.mem_cons_self _ _)).2
    have hwrest : ∀ x ∈ rest', 1 ≤ x ∧ x ≤ 16 :=
      fun x hx => hwid x (List.mem_cons_of_mem _ hx)
    obtain ⟨hidx, hinv2⟩ := hinv
    rw [List.foldl_cons]
    by_cases hwp : w = st.previousCharacterSize
    · by_cases hpa : st.previousCharacterSize = avg
      · -- the character has the average width and no differing run is open:
        -- it is skipped
        rw [buildStep_skip hwp hpa]
        have hwa : w = avg := hwp.trans hpa
        rcases Option.eq_none_or_eq_some st.currentBlock with hc | ⟨b, hc⟩
        · rw [hc] at hinv2
          obtain ⟨hprev, hbd⟩ := hinv2
          have hinv' : stateInv avg
              ({ st with characterIndex := st.characterIndex + 1 }).currentBlock
              { st with characterIndex := st.characterIndex + 1 } (pos + 1)
              (off + (w : Int)) := by
            rw [show ({ st with characterIndex := st.characterIndex + 1
              } : BuildState).currentBlock = st.currentBlock from rfl, hc]
            refine ⟨by simp [hidx], hprev, ?_⟩
            show st.byteDifference = _
            rw [hbd, hwa]
            push_cast
            ring
          obtain ⟨suffix, hemit, hcont⟩ := ih _ _ _ hwrest hinv'
          refine ⟨suffix, hemit, ?_⟩
          rw [hc]
          rw [show ({ st with characterIndex := st.characterIndex + 1
            } : BuildState).currentBlock = st.currentBlock from rfl, hc] at hcont
          simp only [continuation] at hcont ⊢
          rw [hwa] at hcont
          rw [hwa]
          exact coversTail_absorb avg pos off suffix rest' hcont
        · rw [hc] at hinv2
          obtain ⟨hprev, hle, hne, hbd⟩ := hinv2
          have hsa : b.characterSize = avg := hprev.symm.trans hpa
          have hinv' : stateInv avg
              ({ st with characterIndex := st.characterIndex + 1 }).currentBlock
              { st with characterIndex := st.characterIndex + 1 } (pos + 1)
              (off + (w : Int)) := by
            rw [show ({ st with characterIndex := st.characterIndex + 1
              } : BuildState).currentBlock = st.currentBlock from rfl, hc]
            refine ⟨by simp [hidx], hprev, by omega,
              fun hcontra => absurd hsa hcontra, ?_⟩
            show st.byteDifference + _ = _
            rw [hbd, hwa]
            push_cast
            ring
          obtain ⟨suffix, hemit, hcont⟩ := ih _ _ _ hwrest hinv'
          refine ⟨suffix, hemit, ?_⟩
          rw [hc]
          rw [show ({ st with characterIndex := st.characterIndex + 1
            } : BuildState).currentBlock = st.currentBlock from rfl, hc] at hcont
          simp only [continuation] at hcont ⊢
          obtain ⟨t, Δ, hsfx, htake, havg0, hcov⟩ := hcont
          have ht0 : t = 0 := havg0 hsa
          subst ht0
          refine ⟨0, Δ, hsfx, by simp, fun _ => rfl, ?_⟩
          simp only [Nat.add_zero, Nat.cast_zero, zero_mul, add_zero,
            List.drop_zero] at hcov ⊢
          rw [hsa] at hcov ⊢
          rw [hwa] at hcov
          rw [hwa]
          exact coversTail_absorb avg pos off Δ rest' hcov
      · -- the character width equals the open differing-width run
        rcases Option.eq_none_or_eq_some st.currentBlock with hc | ⟨b, hc⟩
        · rw [hc] at hinv2
          exact absurd hinv2.1 hpa
        · rw [hc] at hinv2
          obtain ⟨hprev, hle, hne, hbd⟩ := hinv2
          have hsne : b.characterSize ≠ avg := fun hq => hpa (hprev.trans hq)
          have heq : b.firstCharacter + b.charactersCount = pos := hne hsne
          have hwsize : w = b.characterSize := hwp.trans hprev
          by_cases hfull : b.isFull = true
          · -- the block is full: flush it and open a same-width block
            rw [buildStep_flush_of_full hpa hc hfull]
            have hbd' : (flushAndOpen avg st w).byteDifference =
                off - (avg : Int) * (pos : Int) := by
              rw [flushAndOpen_byteDifference_some hc]
              exact hbd
            obtain ⟨t, Δ, hemit, hcovAll⟩ := flushOpen_extends avg w rest' st
              pos off hw1 hw16 hwrest hidx hbd' ih
            refine ⟨b :: ((Block.setCharacterSize
                { firstCharacter := st.characterIndex
                  firstByteDifference := (flushAndOpen avg st w).byteDifference
                  charactersCountMinusOne := 0
                  characterSizeMinusOne := 0 } w).grow t :: Δ), ?_, ?_⟩
            · rw [hemit, flushAndOpen_blocks_some hc]
              simp
            · rw [hc]
              simp only [continuation]
              refine ⟨0, ((Block.setCharacterSize
                { firstCharacter := st.characterIndex
                  firstByteDifference := (flushAndOpen avg st w).byteDifference
                  charactersCountMinusOne := 0
                  characterSizeMinusOne := 0 } w).grow t :: Δ), by rw [grow_zero], by simp, fun _ => rfl, ?_⟩
              simp only [Nat.add_zero, Nat.cast_zero, zero_mul, add_zero,
                List.drop_zero]
              exact hcovAll b.characterSize
          · -- the block is not full: the character joins it
            have hfull' : b.isFull = false := by
              simpa using hfull
            rw [buildStep_join hwp hpa hc hfull']
            have hinv' : stateInv avg
                ({ st with currentBlock := some b.incrementCharactersCount
                           characterIndex := st.characterIndex + 1
                 } : BuildState).currentBlock
                { st with currentBlock := some b.incrementCharactersCount
                          characterIndex := st.characterIndex + 1 } (pos + 1)
                (off + (w : Int)) := by
              rw [show ({ st with
                  currentBlock := some b.incrementCharactersCount
                  characterIndex := st.characterIndex + 1
                } : BuildState).currentBlock =
                  some b.incrementCharactersCount from rfl]
              refine ⟨by simp [hidx], ?_, ?_, ?_, ?_⟩
              · exact hprev
              · rw [incrementCharactersCount_eq_grow, grow_firstCharacter,
                  grow_charactersCount]
                omega
              · intro _
                rw [incrementCharactersCount_eq_grow, grow_firstCharacter,
                  grow_charactersCount]
                omega
              · show st.byteDifference + _ = _
                rw [incrementCharactersCount_eq_grow]
                simp only [characterSizeDifference, grow_characterSize,
                  grow_charactersCount]
                rw [hwsize]
                push_cast
                simp only [characterSizeDifference] at hbd
                linear_combination hbd
            obtain ⟨suffix, hemit, hcont⟩ := ih _ _ _ hwrest hinv'
            refine ⟨suffix, hemit, ?_⟩
            rw [hc]
            rw [show ({ st with
                currentBlock := some b.incrementCharactersCount
                characterIndex := st.characterIndex + 1
              } : BuildState).currentBlock =
                some b.incrementCharactersCount from rfl] at hcont
            simp only [continuation] at hcont ⊢
            obtain ⟨t, Δ, hsfx, htake, havg0, hcov⟩ := hcont
            refine ⟨t + 1, Δ, ?_, ?_, ?_, ?_⟩
            · rw [hsfx, incrementCharactersCount_eq_grow, grow_grow,
                Nat.add_comm 1 t]
            · rw [List.take_succ_cons, List.replicate_succ]
              rw [incrementCharactersCount_eq_grow, grow_characterSize] at htake
              rw [htake, hwsize]
            · intro hq
              exact absurd hq hsne
            · rw [incrementCharactersCount_eq_grow, grow_characterSize] at hcov
              rw [show pos + (t + 1) = pos + 1 + t by omega]
              rw [show off + ((t + 1 : Nat) : Int) * (b.characterSize : Int) =
                  (off + (w : Int)) + (t : Int) * (b.characterSize : Int) by
                rw [hwsize]; push_cast; ring]
              rw [List.drop_succ_cons]
              exact hcov
    · -- the character width differs from the previous one: flush and open
      rw [buildStep_flush_of_ne hwp]
      have hbd' : (flushAndOpen avg st w).byteDifference =
          off - (avg : Int) * (pos : Int) := by
        rcases Option.eq_none_or_eq_some st.currentBlock with hc | ⟨b, hc⟩
        · rw [flushAndOpen_byteDifference_none hc]
          rw [hc] at hinv2
          exact hinv2.2
        · rw [flushAndOpen_byteDifference_some hc]
          rw [hc] at hinv2
          exact hinv2.2.2.2
      obtain ⟨t, Δ, hemit, hcovAll⟩ := flushOpen_extends avg w rest' st pos off
        hw1 hw16 hwrest hidx hbd' ih
      rcases Option.eq_none_or_eq_some st.currentBlock with hc | ⟨b, hc⟩
      · refine ⟨((Block.setCharacterSize
                { firstCharacter := st.characterIndex
                  firstByteDifference := (flushAndOpen avg st w).byteDifference
                  charactersCountMinusOne := 0
                  characterSizeMinusOne := 0 } w).grow t :: Δ), ?_, ?_⟩
        · rw [hemit, flushAndOpen_blocks_none hc]
        · rw [hc]
          simp only [continuation]
          exact hcovAll avg
      · refine ⟨b :: ((Block.setCharacterSize
                { firstCharacter := st.characterIndex
                  firstByteDifference := (flushAndOpen avg st w).byteDifference
                  charactersCountMinusOne := 0
                  characterSizeMinusOne := 0 } w).grow t :: Δ), ?_, ?_⟩
        · rw [hemit, flushAndOpen_blocks_some hc]
          simp
        · rw [hc]
          simp only [continuation]
          refine ⟨0, ((Block.setCharacterSize
                { firstCharacter := st.characterIndex
                  firstByteDifference := (flushAndOpen avg st w).byteDifference
                  charactersCountMinusOne := 0
                  characterSizeMinusOne := 0 } w).grow t :: Δ), by rw [grow_zero], by simp, fun _ => rfl, ?_⟩
          simp only [Nat.add_zero, Nat.cast_zero, zero_mul, add_zero,
            List.drop_zero]
          exact hcovAll b.characterSize

end UC

namespace UC

/-! ### Round-trip correctness of the layout (C1) -/

theorem all_one_of_length_eq_sum :
    ∀ (ws : List Nat), (∀ w ∈ ws, 1 ≤ w) → ws.length = ws.sum →
      ∀ w ∈ ws, w = 1 := by
  intro ws
  induction ws with
  | nil => intro _ _ w hw; cases hw
  | cons x xs ih =>
    intro h1 heq w hw
    have hx1 : 1 ≤ x := h1 x (List.mem_cons_self _ _)
    have hxs : xs.length ≤ xs.sum :=
      List.length_le_sum_of_one_le xs (fun i hi => h1 i (List.mem_cons_of_mem _ hi))
    simp only [List.length_cons, List.sum_cons] at heq
    have hx : x = 1 := by omega
    have heq' : xs.length = xs.sum := by omega
    rcases List.mem_cons.1 hw with rfl | hw
    · exact hx
    · exact ih (fun i hi => h1 i (List.mem_cons_of_mem _ hi)) heq' w hw

theorem sum_le_sixteen_mul :
    ∀ (ws : List Nat), (∀ w ∈ ws, w ≤ 16) → ws.sum ≤ 16 * ws.length := by
  intro ws
  induction ws with
  | nil => intro _; simp
  | cons x xs ih =>
    intro h
    have := ih (fun i hi => h i (List.mem_cons_of_mem _ hi))
    have := h x (List.mem_cons_self _ _)
    simp only [List.sum_cons, List.length_cons]
    omega

theorem natRound_le_sixteen {b c : Nat} (hb : b ≤ 16 * c) (hc : 1 ≤ c) :
    natRound b c ≤ 16 := by
  unfold natRound
  have h2c : 0 < 2 * c := by omega
  have : (2 * b + c) / (2 * c) < 17 := by
    rw [Nat.div_lt_iff_lt_mul h2c]
    omega
  omega

/-- C1: for every buffer (given by its grapheme-cluster byte widths, each in
the 1..16 range the data model admits) and every valid character index `i`,
the byte range computed by `getCharacterByteIndexAndSize` on the layout
built by `getFor` is exactly the byte range of the i-th cluster in the
reference segmentation: offset `(ws.take i).sum`, size `ws.get i`. -/
theorem byteRange_c1 (ws : List Nat) (hw : ∀ w ∈ ws, 1 ≤ w ∧ w ≤ 16)
    (i wi : Nat) (hi : ws.get? i = some wi) :
    Layout.getCharacterByteIndexAndSize (Layout.getFor ws) i =
      ((((ws.take i).sum : Nat) : Int), wi) := by
  rw [getCharacterByteIndexAndSize_eq_queryOn]
  have hilen : i < ws.length := (List.get?_eq_some.1 hi).1
  by_cases hA : ws.length = ws.sum
  · have h1 : ∀ w ∈ ws, w = 1 :=
      all_one_of_length_eq_sum ws (fun w hw' => (hw w hw').1) hA
    have hwi1 : wi = 1 := h1 wi (List.get?_mem hi)
    have hL : Layout.getFor ws =
        { averageCharacterSize := 1, size := ws.length, blocks := [] } := by
      simp [Layout.getFor, hA]
    rw [hL]
    rw [queryOn_none (show getNearestLeftBlock [] i = none from rfl)]
    have hsum : (ws.take i).sum = i := by
      have := sum_take_of_get? ws i 1 (fun j hj => by
        have hjl : j < ws.length := by omega
        rw [List.get?_eq_get hjl]
        exact congrArg some (h1 _ (List.get_mem ws _ _)))
      simpa using this
    rw [hsum, hwi1]
    simp
  · have hl1 : 1 ≤ ws.length := by
      rcases ws with _ | ⟨x, xs⟩
      · simp at hA
      · simp
    have h16 : natRound ws.sum ws.length ≤ 16 :=
      natRound_le_sixteen
        (sum_le_sixteen_mul ws (fun w hw' => (hw w hw').2)) hl1
    have hmod : natRound ws.sum ws.length % 256 = natRound ws.sum ws.length :=
      Nat.mod_eq_of_lt (by omega)
    have hL : Layout.getFor ws =
        { averageCharacterSize := natRound ws.sum ws.length % 256
          size := ws.length
          blocks := emit (List.foldl
            (buildStep (natRound ws.sum ws.length % 256))
            (initState (natRound ws.sum ws.length % 256)) ws) } := by
      simp [Layout.getFor, hA]
    rw [hL]
    have hinv : stateInv (natRound ws.sum ws.length % 256)
        (initState (natRound ws.sum ws.length % 256)).currentBlock
        (initState (natRound ws.sum ws.length % 256)) 0 0 := by
      rw [show (initState (natRound ws.sum ws.length % 256)).currentBlock =
        none from rfl]
      exact ⟨rfl, rfl, by simp [initState]⟩
    obtain ⟨suffix, hemit, hcont⟩ := buildGo_covers
      (natRound ws.sum ws.length % 256) ws _ 0 0 hw hinv
    rw [show (initState (natRound ws.sum ws.length % 256)).currentBlock =
      none from rfl] at hcont
    simp only [continuation] at hcont
    have hemit' : emit (List.foldl
        (buildStep (natRound ws.sum ws.length % 256))
        (initState (natRound ws.sum ws.length % 256)) ws) = suffix := by
      simpa [initState] using hemit
    have hq := queryOn_covers (natRound ws.sum ws.length % 256) suffix
      (natRound ws.sum ws.length % 256) 0 0 ws hcont i wi (Nat.zero_le i)
      (by simpa using hi)
    simp only [Nat.cast_zero, mul_zero, sub_zero, zero_add, Nat.sub_zero]
      at hq
    simpa [hemit'] using hq

/-- Witness for C1 at the buffer with widths [3, 1, 2, 2] and index 2. -/
theorem byteRange_c1_witness :
    Layout.getCharacterByteIndexAndSize (Layout.getFor [3, 1, 2, 2]) 2 =
      ((4 : Int), 2) :=
  byteRange_c1 [3, 1, 2, 2] (by decide) 2 2 (by decide)

end UC

namespace UC

/-- On a sorted block list, `getNearestLeftBlock` returns exactly the block
with the greatest `firstCharacter` among those with `firstCharacter ≤ i`. -/
theorem nearest_eq_greatest :
    ∀ (blocks : List Block) (i : Nat) (b : Block),
      blocks.Pairwise (fun x y => x.firstCharacter < y.firstCharacter) →
      b ∈ blocks → b.firstCharacter ≤ i →
      (∀ c ∈ blocks, c.firstCharacter ≤ i →
        c.firstCharacter ≤ b.firstCharacter) →
      getNearestLeftBlock blocks i = some b := by
  intro blocks
  induction blocks with
  | nil => intro i b _ hmem; cases hmem
  | cons x xs ih =>
    intro i b hsort hmem hle hgreat
    obtain ⟨hx_lt, hsort'⟩ := List.pairwise_cons.1 hsort
    by_cases hx : x.firstCharacter ≤ i
    · rw [nearest_cons_le hx]
      rcases List.mem_cons.1 hmem with rfl | hb
      · cases hN : getNearestLeftBlock xs i with
        | none => rfl
        | some y =>
          exfalso
          have hy_tw : y ∈ xs.takeWhile
              (fun c => decide (c.firstCharacter ≤ i)) :=
            List.mem_of_mem_getLast? hN
          have hy_mem : y ∈ xs := (List.takeWhile_sublist _).subset hy_tw
          have hy_le : y.firstCharacter ≤ i := by
            simpa using List.mem_takeWhile_imp hy_tw
          have h1 := hgreat y (List.mem_cons_of_mem _ hy_mem) hy_le
          have h2 := hx_lt y hy_mem
          omega
      · rw [ih i b hsort' hb hle
          (fun c hc hci => hgreat c (List.mem_cons_of_mem _ hc) hci)]
        rfl
    · exfalso
      push_neg at hx
      rcases List.mem_cons.1 hmem with rfl | hb
      · omega
      · have := hx_lt b hb
        omega

/-- C2: on an evaluated layout (its blocks sorted by first character index,
as every layout the program builds is), if the predecessor search finds a
block `b` — the one with the greatest `firstCharacterIndex ≤ i` — but the
valid index `i` lies at or past `firstCharacterIndex + characterCount` of
that block, the query returns offset
`i * averageCharacterSize + b.prefixCorrection` and size
`averageCharacterSize`. -/
theorem pastBlock_c2 (l : Layout) (i : Nat) (b : Block)
    (hsort : l.blocks.Pairwise
      (fun x y => x.firstCharacter < y.firstCharacter))
    (hmem : b ∈ l.blocks) (hle : b.firstCharacter ≤ i)
    (hgreat : ∀ c ∈ l.blocks, c.firstCharacter ≤ i →
      c.firstCharacter ≤ b.firstCharacter)
    (hpast : b.firstCharacter + b.charactersCount ≤ i)
    (_hvalid : i < l.size) :
    l.getCharacterByteIndexAndSize i =
      ((i : Int) * (l.averageCharacterSize : Int) + b.firstByteDifference,
       l.averageCharacterSize) := by
  rw [getCharacterByteIndexAndSize_eq_queryOn,
    queryOn_some (nearest_eq_greatest l.blocks i b hsort hmem hle hgreat),
    if_neg (show ¬ b.containsCharacterIndex i = true by
      simp only [Block.containsCharacterIndex, Bool.and_eq_true,
        decide_eq_true_eq]
      omega)]

/-- Witness for C2: in the layout for widths [3, 1, 2, 2] (average 2), the
valid index 3 lies past the nearest left block, which starts at character 2
with one character and correction 0. -/
theorem pastBlock_c2_witness :
    Layout.getCharacterByteIndexAndSize (Layout.getFor [3, 1, 2, 2]) 3 =
      ((6 : Int), 2) :=
  pastBlock_c2 (Layout.getFor [3, 1, 2, 2]) 3 ⟨2, 0, 0, 1⟩ (by decide)
    (by decide) (by decide) (by decide) (by decide) (by decide)

end UC
